import Mathlib

/-!
Shallow embedding of the stock/price synchronisation scripts `seller.py`
(Ozon) and `market.py` (Yandex.Market): inventory records, the stock and
price reconcilers, the price normalizer, the chunker, the paginated offer
catalog fetcher, and the orchestration data flow, together with theorems
settling the specification claims about them.

Strings that only serve as identifiers (codes, offer ids, tokens) are kept
as Lean `String`; the price normalizer, which inspects individual
characters, works on `List Char` (the character content of the Python
string).
-/

set_option maxHeartbeats 1000000

namespace SellerApis

/-- One row of the authoritative inventory spreadsheet, as consumed by the
reconcilers: field `Код` (code), field `Количество` (quantity token) and
field `Цена` (raw price string, kept as its character list). -/
structure WatchRecord where
  code : String
  quantity : String
  price : List Char
deriving DecidableEq, Repr

/-- Embedding of the character content of Python `price.split(".")[0]`:
the portion of the string strictly before the first period, the whole
string when no period occurs. -/
def splitDotHead : List Char → List Char
  | [] => []
  | c :: cs => if c = '.' then [] else c :: splitDotHead cs

/-- Embedding of seller.py `price_conversion` (line 252):
`re.sub("[^0-9]", "", price.split(".")[0])` — keep only the decimal digits
of the portion preceding the first period. -/
def price_conversion (price : List Char) : List Char :=
  (splitDotHead price).filter Char.isDigit

/-- Numeric value of a digit string, most significant digit first. -/
def digitsVal (l : List Char) : Nat :=
  l.foldl (fun acc c => 10 * acc + (c.toNat - 48)) 0

/-- Parses a nonempty all-digit character list, `none` otherwise. -/
def pyNatParse (l : List Char) : Option Nat :=
  if !l.isEmpty && l.all Char.isDigit then some (digitsVal l) else none

/-- Model of the Python built-in `int(s)` on a string: an optional minus
sign followed by a nonempty run of decimal digits; any other shape raises
`ValueError`, modelled as `none`.  (Python also tolerates surrounding
whitespace, a plus sign and digit-group underscores; those shapes never
occur in this program's data and are not modelled.) -/
def pyInt (s : String) : Option Int :=
  match s.data with
  | [] => none
  | c :: cs =>
      if c = '-' then (pyNatParse cs).map (fun n => -(n : Int))
      else (pyNatParse (c :: cs)).map (fun n => (n : Int))

/-- Quantity-token resolution shared by seller.py lines 190-196 and
market.py lines 168-174: token `">10"` resolves to stock 100, token `"1"`
to stock 0, any other token is passed to `int()`; `none` models the
`ValueError` raised when the token is not an integer literal. -/
def resolveStock (q : String) : Option Int :=
  if q = ">10" then some 100
  else if q = "1" then some 0
  else pyInt q

/-- Marker for a Python exception escaping a modelled function. -/
inductive PyError where
  | valueError : PyError
deriving DecidableEq, Repr

namespace Seller

/-- One element of the `stocks` list built by seller.py `create_stocks`:
a dict with keys `offer_id` and `stock`. -/
structure StockEntry where
  offer_id : String
  stock : Int
deriving DecidableEq, Repr

/-- First loop of seller.py `create_stocks` (lines 188-198), with the
destructive mutation of `offer_ids` made explicit: scanning the inventory
records in order, a record whose code is in the current offer-id list
yields one entry with the resolved stock and removes that code from the
list (`list.remove` deletes the first occurrence); other records are
skipped.  Returns the matched entries in scan order together with the
final state of the offer-id list, or the `ValueError` escaping from
`int()` on a malformed quantity. -/
def stocksLoop : List WatchRecord → List String →
    Except PyError (List StockEntry × List String)
  | [], offer_ids => .ok ([], offer_ids)
  | w :: ws, offer_ids =>
      if w.code ∈ offer_ids then
        match resolveStock w.quantity with
        | none => .error .valueError
        | some st =>
            match stocksLoop ws (offer_ids.erase w.code) with
            | .error e => .error e
            | .ok (rest, remaining) =>
                .ok (⟨w.code, st⟩ :: rest, remaining)
      else stocksLoop ws offer_ids

/-- Embedding of seller.py `create_stocks` (lines 165-202): the matching
loop above followed by the zero-fill loop (lines 200-201) that appends a
stock-0 entry for every offer id left in the list.  The second component
is the final state of the caller's `offer_ids` list (the zero-fill loop
only reads it). -/
def create_stocks (watch_remnants : List WatchRecord) (offer_ids : List String) :
    Except PyError (List StockEntry × List String) :=
  match stocksLoop watch_remnants offer_ids with
  | .error e => .error e
  | .ok (matched, remaining) =>
      .ok (matched ++ remaining.map (fun i => ⟨i, 0⟩), remaining)

/-- One element of the `prices` list built by seller.py `create_prices`:
the dict literal of lines 229-235 (two of its five fields are the
constants recorded in `create_prices` below). -/
structure PriceEntry where
  offer_id : String
  old_price : String
  price : List Char
deriving DecidableEq, Repr

/-- Embedding of seller.py `create_prices` (lines 205-237), state-passing
form: records whose code is in the offer-id list each yield one entry (the
loop never writes to `offer_ids`, so the list is threaded unchanged);
other records yield nothing.  Constant fields of the dict literal:
`auto_action_enabled` is always `"UNKNOWN"` and `currency_code` always
`"RUB"`, so they are left out of `PriceEntry`. -/
def create_prices : List WatchRecord → List String →
    (List PriceEntry × List String)
  | [], offer_ids => ([], offer_ids)
  | w :: ws, offer_ids =>
      if w.code ∈ offer_ids then
        let res := create_prices ws offer_ids
        (⟨w.code, "0", price_conversion w.price⟩ :: res.1, res.2)
      else create_prices ws offer_ids

end Seller

namespace Market

/-- The single element of the `items` list inside one Yandex.Market stock
dict (market.py lines 179-186): a resolved count, the constant type
`"FIT"` and the run timestamp. -/
structure StockItem where
  count : Int
  updatedAt : String
deriving DecidableEq, Repr

/-- One element of the `stocks` list built by market.py `create_stocks`:
a dict with keys `sku`, `warehouseId` and `items`. -/
structure StockEntry where
  sku : String
  warehouseId : String
  items : List StockItem
deriving DecidableEq, Repr

/-- First loop of market.py `create_stocks` (lines 166-188), parallel to
`Seller.stocksLoop`: same membership test, same quantity resolution, same
`offer_ids.remove`, but the entry carries the warehouse id and the shared
run timestamp `date` (computed once before the loop, line 165, and passed
in here as a parameter since it comes from the system clock). -/
def stocksLoop (warehouse_id date : String) :
    List WatchRecord → List String →
    Except PyError (List StockEntry × List String)
  | [], offer_ids => .ok ([], offer_ids)
  | w :: ws, offer_ids =>
      if w.code ∈ offer_ids then
        match resolveStock w.quantity with
        | none => .error .valueError
        | some st =>
            match stocksLoop warehouse_id date ws (offer_ids.erase w.code) with
            | .error e => .error e
            | .ok (rest, remaining) =>
                .ok (⟨w.code, warehouse_id, [⟨st, date⟩]⟩ :: rest, remaining)
      else stocksLoop warehouse_id date ws offer_ids

/-- Embedding of market.py `create_stocks` (lines 140-204): the matching
loop followed by the zero-fill loop (lines 190-203) appending a count-0
entry for every offer id left in the list. -/
def create_stocks (watch_remnants : List WatchRecord) (offer_ids : List String)
    (warehouse_id date : String) :
    Except PyError (List StockEntry × List String) :=
  match stocksLoop warehouse_id date watch_remnants offer_ids with
  | .error e => .error e
  | .ok (matched, remaining) =>
      .ok (matched ++ remaining.map (fun i => ⟨i, warehouse_id, [⟨0, date⟩]⟩),
           remaining)

/-- One element of the `prices` list built by market.py `create_prices`:
a dict with key `id` and a nested price dict whose `value` is
`int(price_conversion(...))`; `currencyId` is the constant `"RUR"` and is
left out. -/
structure PriceEntry where
  id : String
  value : Int
deriving DecidableEq, Repr

/-- Embedding of market.py `create_prices` (lines 207-244), state-passing
form: records whose code is in the offer-id list each yield one entry with
`value = int(price_conversion(watch.get("Цена")))`; the `int()` call
raises `ValueError` (modelled as `.error`) when the digit string is empty.
The loop never writes to `offer_ids`. -/
def create_prices : List WatchRecord → List String →
    Except PyError (List PriceEntry × List String)
  | [], offer_ids => .ok ([], offer_ids)
  | w :: ws, offer_ids =>
      if w.code ∈ offer_ids then
        match pyInt (String.mk (price_conversion w.price)) with
        | none => .error .valueError
        | some v =>
            match create_prices ws offer_ids with
            | .error e => .error e
            | .ok (rest, ids2) => .ok (⟨w.code, v⟩ :: rest, ids2)
      else create_prices ws offer_ids

end Market

/-- Chunk loop of seller.py `divide` (lines 270-271) for a positive chunk
size: `for i in range(0, len(lst), n): yield lst[i : i + n]`.  The slice
`lst[i : i + n]` at the current position is `l.take n` of what is left and
the step `i += n` drops those `n` elements; the iteration stops once the
remaining list is exhausted.  The `n = 0` guard only totalises the
definition: `divide` reports the `range` error before ever reaching the
loop in that case. -/
def toChunks (n : Nat) (l : List α) : List (List α) :=
  if _hn : n = 0 then []
  else
    match l with
    | [] => []
    | a :: as => (a :: as).take n :: toChunks n ((a :: as).drop n)
termination_by l.length
decreasing_by
  simp only [List.length_drop, List.length_cons]
  omega

/-- Embedding of seller.py `divide` (lines 255-271), consumed eagerly as
`list(divide(lst, n))` at every call site.  Python semantics of the header
`range(0, len(lst), n)`: a zero step raises
`ValueError: range() arg 3 must not be zero` as soon as the generator body
starts; a negative step gives an empty range whenever the stop value
`len(lst)` is ≥ 0, which it always is, so no slice is yielded and the
consumed generator is the empty list. -/
def divide (lst : List α) (n : Int) : Except String (List (List α)) :=
  if n = 0 then .error "range arg 3 must not be zero"
  else if n < 0 then .ok []
  else .ok (toChunks n.toNat lst)

/-- One page returned by the Ozon product-list endpoint as read by
seller.py `get_offer_ids`: the `items` of `result` (projected to their
`offer_id`, the only field the function reads), the reported `total` and
the `last_id` cursor for the next request. -/
structure Page where
  items : List String
  total : Nat
  last_id : String
deriving Repr

/-- The marketplace server as a deterministic response function: the page
returned for a given `last_id` cursor. -/
def Server : Type := String → Page

/-- Loop body of seller.py `get_offer_ids` (lines 64-72) with explicit
fuel: each iteration fetches the page for the current cursor, extends the
accumulated product list, and stops (`break`) exactly when the reported
`total` equals the length of the accumulated list; otherwise it continues
with the new cursor.  `none` means the fuel ran out without the loop
breaking. -/
def fetchLoop (srv : Server) : Nat → String → List String → Option (List String)
  | 0, _, _ => none
  | fuel + 1, last_id, acc =>
      let p := srv last_id
      let acc2 := acc ++ p.items
      if p.total = acc2.length then some acc2
      else fetchLoop srv fuel p.last_id acc2

/-- Embedding of seller.py `get_offer_ids` (lines 48-76) with fuel: run
the pagination loop from the empty cursor and empty accumulator (the final
projection loop, lines 73-75, is the identity here because pages already
carry the offer ids). -/
def get_offer_ids (srv : Server) (fuel : Nat) : Option (List String) :=
  fetchLoop srv fuel "" []

/-- Cursor sent for the k-th request of `get_offer_ids` (request 0 uses
the empty cursor). -/
def cursorSeq (srv : Server) : Nat → String
  | 0 => ""
  | k + 1 => (srv (cursorSeq srv k)).last_id

/-- The page received by the k-th request of `get_offer_ids`. -/
def pageSeq (srv : Server) (k : Nat) : Page :=
  srv (cursorSeq srv k)

/-- All items accumulated before the k-th request is made: the
concatenation, in page order, of the items of pages 0..k-1. -/
def accBefore (srv : Server) (k : Nat) : List String :=
  (List.range k).flatMap (fun j => (pageSeq srv j).items)

/-- The break condition of the pagination loop at the end of page k: the
total reported by page k equals the number of items accumulated once page
k has been consumed. -/
def stopAt (srv : Server) (k : Nat) : Prop :=
  (pageSeq srv k).total = (accBefore srv (k + 1)).length

instance (srv : Server) (k : Nat) : Decidable (stopAt srv k) :=
  inferInstanceAs (Decidable (_ = _))

/-- Data flow of the reconciliation part of seller.py `main`
(lines 339-348), with the two external fetches (`get_offer_ids`,
`download_stock`) passed in as parameters: `create_stocks` is called on
the fetched offer-id list and mutates it in place (`offer_ids.remove`);
the same, now reduced, list object is then passed to `create_prices`.
The intermediate `update_stocks` / `update_price` batch calls only read
`stocks` / `prices` and do not affect the data flow modelled here. -/
def sellerMainSync (watch_remnants : List WatchRecord) (offer_ids : List String) :
    Except PyError (List Seller.StockEntry × List Seller.PriceEntry) :=
  match Seller.create_stocks watch_remnants offer_ids with
  | .error e => .error e
  | .ok (stocks, ids2) => .ok (stocks, (Seller.create_prices watch_remnants ids2).1)

/-- One bulk HTTP call issued by market.py `main`. -/
inductive MarketEvent where
  | stockBatch (campaign_id : String) (batch : List Market.StockEntry)
  | priceBatch (campaign_id : String) (batch : List Market.PriceEntry)
deriving DecidableEq, Repr

/-- Recognizer for price-update calls. -/
def MarketEvent.isPriceBatch : MarketEvent → Bool
  | .priceBatch _ _ => true
  | .stockBatch _ _ => false

/-- Trace of bulk HTTP calls made by one channel block of market.py `main`
(FBS: lines 324-330, DBS: lines 333-339), with the fetched offer-id list
passed in as a parameter.  The block runs
`create_stocks` then `update_stocks` on each 2000-chunk, then invokes
`upload_prices(watch_remnants, campaign_id, market_token)` — an `async
def` — without `await` inside the synchronous `main`: the coroutine object
is created and immediately discarded, its body (which would call
`create_prices` and `update_price` on each 500-chunk) never starts, so the
block issues no price-update call and contributes no further events. -/
def marketChannelTrace (watch_remnants : List WatchRecord)
    (offer_ids : List String) (campaign_id warehouse_id date : String) :
    Except PyError (List MarketEvent) :=
  match Market.create_stocks watch_remnants offer_ids warehouse_id date with
  | .error e => .error e
  | .ok (stocks, _) =>
      .ok ((toChunks 2000 stocks).map (MarketEvent.stockBatch campaign_id))

/-- Trace of bulk HTTP calls made by one run of market.py `main`
(lines 321-345): the FBS channel block followed by the DBS channel block,
each on its own fetched offer-id list. -/
def marketMainTrace (watch_remnants : List WatchRecord)
    (ids_fbs ids_dbs : List String)
    (campaign_fbs campaign_dbs warehouse_fbs warehouse_dbs date : String) :
    Except PyError (List MarketEvent) :=
  match marketChannelTrace watch_remnants ids_fbs campaign_fbs warehouse_fbs date with
  | .error e => .error e
  | .ok t1 =>
      match marketChannelTrace watch_remnants ids_dbs campaign_dbs warehouse_dbs date with
      | .error e => .error e
      | .ok t2 => .ok (t1 ++ t2)

/-- Concrete one-page server used to instantiate the pagination claims:
every request is answered with a single item and total 1, so the loop
breaks at the end of the first page. -/
def onePageServer : Server := fun _ => ⟨["w1"], 1, ""⟩

/-! ## Helper lemmas -/

lemma splitDotHead_eq_takeWhile (l : List Char) :
    splitDotHead l = l.takeWhile (fun c => c != '.') := by
  induction l with
  | nil => rfl
  | cons c cs ih =>
      by_cases h : c = '.' <;>
        simp [splitDotHead, List.takeWhile_cons, h, ih]

lemma price_conversion_all_digits (price : List Char) :
    (price_conversion price).all Char.isDigit = true := by
  simp only [price_conversion, List.all_eq_true]
  intro c hc
  exact (List.mem_filter.mp hc).2

/-- Claim C6: for every input string, `price_conversion` keeps exactly the
decimal digits of the portion preceding the first period; on the example
inputs `5'990.00 руб.` and `5'990.60 руб.` it returns `5990` (fraction
discarded, not rounded) and on `5'990,60 руб.` it returns `599060` (the
comma digits are concatenated into the integer part). -/
theorem c6_price_conversion :
    (∀ price : List Char,
      price_conversion price =
        (price.takeWhile (fun c => c != '.')).filter Char.isDigit) ∧
    price_conversion ('5' :: Char.ofNat 39 :: "990.00 руб.".data) = "5990".data ∧
    price_conversion ('5' :: Char.ofNat 39 :: "990.60 руб.".data) = "5990".data ∧
    price_conversion ('5' :: Char.ofNat 39 :: "990,60 руб.".data) = "599060".data := by
  refine ⟨fun price => ?_, by decide, by decide, by decide⟩
  simp [price_conversion, splitDotHead_eq_takeWhile]

/-- Claim C9: `price_conversion` is total and returns a digit-only,
possibly empty string; when no digit precedes the first period it returns
the empty string, and `market.create_prices` then fails with the
`ValueError` from `int("")` when building the price payload. -/
theorem c9_empty_conversion_fails :
    (∀ price : List Char, (price_conversion price).all Char.isDigit = true) ∧
    (∀ price : List Char,
      (∀ c ∈ price.takeWhile (fun c => c != '.'), ¬ c.isDigit) →
      price_conversion price = []) ∧
    price_conversion "руб.".data = [] ∧
    price_conversion [] = [] ∧
    Market.create_prices [⟨"A1", "5", "руб.".data⟩] ["A1"] =
      .error .valueError := by
  refine ⟨price_conversion_all_digits, fun price h => ?_, by decide, rfl, rfl⟩
  rw [price_conversion, splitDotHead_eq_takeWhile]
  exact List.filter_eq_nil_iff.mpr (by simpa using h)

/-- Claim C9 witness: the digit-free input `xруб` taken at the hypothesis
of the empty-result conjunct. -/
theorem c9_empty_conversion_fails_witness :
    (∀ c ∈ "xруб".data.takeWhile (fun c => c != '.'), ¬ c.isDigit) ∧
    price_conversion "xруб".data = [] :=
  ⟨by decide, c9_empty_conversion_fails.2.1 "xруб".data (by decide)⟩

/-- Claim C8 counterexample: at the non-positive chunk size `-1`, `divide`
does not fail; consumed as a list it returns no chunks at all (Python
`range(0, 1, -1)` is empty), refuting the claim that every non-positive
chunk size produces an invalid-argument error. -/
theorem c8_counterexample :
    divide [(0 : Nat)] (-1) = .ok [] := by
  rfl

/-- Claim C8 amended: only chunk size 0 makes `divide` fail (the
`range` step error); a negative chunk size yields the empty chunk
sequence without any error. -/
theorem c8_divide_nonpositive {α : Type} (lst : List α) (n : Int) :
    divide lst 0 = .error "range arg 3 must not be zero" ∧
    (n < 0 → divide lst n = .ok []) := by
  constructor
  · rfl
  · intro h
    rw [divide, if_neg (by omega), if_pos h]

/-- Claim C8 amended, witness at the concrete inputs `[7]` and `n = -2`. -/
theorem c8_divide_nonpositive_witness :
    divide [(7 : Nat)] 0 = .error "range arg 3 must not be zero" ∧
    ((-2 : Int) < 0 ∧ divide [(7 : Nat)] (-2) = .ok []) :=
  ⟨(c8_divide_nonpositive [(7 : Nat)] (-2)).1,
   by decide, (c8_divide_nonpositive [(7 : Nat)] (-2)).2 (by decide)⟩

lemma toChunks_nil (n : Nat) : toChunks n ([] : List α) = [] := by
  rw [toChunks]
  split <;> rfl

lemma toChunks_cons (n : Nat) (hn : n ≠ 0) (a : α) (as : List α) :
    toChunks n (a :: as) =
      (a :: as).take n :: toChunks n ((a :: as).drop n) := by
  conv_lhs => rw [toChunks]
  simp [hn]

lemma getLast?_cons_of_ne_nil {a : α} {l : List α} (h : l ≠ []) :
    (a :: l).getLast? = l.getLast? := by
  cases l with
  | nil => exact absurd rfl h
  | cons b t => rfl

lemma toChunks_spec_aux (n : Nat) (hn : n ≠ 0) :
    ∀ (m : Nat) (l : List α), l.length ≤ m →
      (toChunks n l).flatten = l ∧
      (∀ c ∈ (toChunks n l).dropLast, c.length = n) ∧
      (∀ c, (toChunks n l).getLast? = some c →
        c.length = if l.length % n = 0 then n else l.length % n) ∧
      (toChunks n l = [] ↔ l = []) := by
  intro m
  induction m with
  | zero =>
      intro l hl
      have h0 : l = [] := List.length_eq_zero.mp (Nat.le_zero.mp hl)
      subst h0
      simp [toChunks_nil]
  | succ m ih =>
      intro l hl
      match l with
      | [] => simp [toChunks_nil]
      | a :: as =>
        rw [toChunks_cons n hn a as]
        have hlen : ((a :: as).drop n).length = (a :: as).length - n := by
          simp [List.length_drop]
        have hrec := ih ((a :: as).drop n)
          (by simp only [List.length_drop, List.length_cons] at *; omega)
        by_cases ht : (a :: as).drop n = []
        · -- the whole list fits in a single chunk
          rw [ht, toChunks_nil]
          have hle : (a :: as).length ≤ n := by
            have := congrArg List.length ht
            simp only [List.length_drop, List.length_nil] at this
            omega
          have htake : ((a :: as).take n).length = (a :: as).length := by
            rw [List.length_take]
            omega
          have htake_all : (a :: as).take n = a :: as := List.take_of_length_le hle
          refine ⟨by simp [htake_all], ?_, ?_, ?_⟩
          · intro c hc
            simp at hc
          · intro c hc
            simp only [List.getLast?_singleton, Option.some.injEq] at hc
            subst hc
            rw [htake]
            rcases Nat.lt_or_ge (a :: as).length n with hlt | hge
            · rw [Nat.mod_eq_of_lt hlt, if_neg (by simp)]
            · have heq : (a :: as).length = n := Nat.le_antisymm hle hge
              rw [heq, Nat.mod_self, if_pos rfl]
          · simp
        · -- at least one further chunk
          have hne : toChunks n ((a :: as).drop n) ≠ [] := by
            intro hcon
            exact ht (hrec.2.2.2.mp hcon)
          have hgt : n < (a :: as).length := by
            rcases Nat.lt_or_ge n (a :: as).length with h | h
            · exact h
            · exact absurd (List.drop_eq_nil_of_le h) ht
          refine ⟨?_, ?_, ?_, ?_⟩
          · rw [List.flatten_cons, hrec.1, List.take_append_drop]
          · intro c hc
            rw [List.dropLast_cons_of_ne_nil hne] at hc
            rcases List.mem_cons.mp hc with hc | hc
            · subst hc
              rw [List.length_take]
              omega
            · exact hrec.2.1 c hc
          · intro c hc
            rw [getLast?_cons_of_ne_nil hne] at hc
            have := hrec.2.2.1 c hc
            have hmod : ((a :: as).drop n).length % n = (a :: as).length % n := by
              rw [hlen]
              have hsplit : (a :: as).length = ((a :: as).length - n) + n := by omega
              conv_rhs => rw [hsplit]
              rw [Nat.add_mod_right]
            rw [hmod] at this
            exact this
          · simp

/-- Claim C7: for every list and every chunk size n > 0, `divide` succeeds
and its chunks concatenate back to the original list in order, every chunk
except possibly the last has length exactly n, the last chunk has length
L mod n (or n when L mod n = 0), and the chunk sequence is non-empty iff
the list is. -/
theorem c7_divide_chunks {α : Type} (lst : List α) (n : Int) (hn : 0 < n) :
    ∃ cs, divide lst n = .ok cs ∧
      cs.flatten = lst ∧
      (∀ c ∈ cs.dropLast, c.length = n.toNat) ∧
      (∀ c, cs.getLast? = some c →
        c.length = if lst.length % n.toNat = 0 then n.toNat
                   else lst.length % n.toNat) ∧
      (cs ≠ [] ↔ lst ≠ []) := by
  have hzero : n.toNat ≠ 0 := by omega
  have aux := toChunks_spec_aux n.toNat hzero lst.length lst le_rfl
  refine ⟨toChunks n.toNat lst, ?_, aux.1, aux.2.1, aux.2.2.1, not_congr aux.2.2.2⟩
  rw [divide, if_neg (by omega), if_neg (by omega)]

/-- Claim C7 witness at the concrete list `[1, 2, 3, 4, 5]` and chunk
size 2. -/
theorem c7_divide_chunks_witness :
    (0 : Int) < 2 ∧
    ∃ cs, divide [1, 2, 3, 4, 5] (2 : Int) = .ok cs ∧
      cs.flatten = [1, 2, 3, 4, 5] ∧
      (∀ c ∈ cs.dropLast, c.length = (2 : Int).toNat) ∧
      (∀ c, cs.getLast? = some c →
        c.length = if ([1, 2, 3, 4, 5] : List Nat).length % (2 : Int).toNat = 0
                   then (2 : Int).toNat
                   else ([1, 2, 3, 4, 5] : List Nat).length % (2 : Int).toNat) ∧
      (cs ≠ [] ↔ ([1, 2, 3, 4, 5] : List Nat) ≠ []) :=
  ⟨by decide, c7_divide_chunks [1, 2, 3, 4, 5] 2 (by decide)⟩

lemma sellerStocksLoop_nil {ids m rem}
    (h : Seller.stocksLoop [] ids = .ok (m, rem)) : m = [] ∧ rem = ids := by
  simp only [Seller.stocksLoop, Except.ok.injEq, Prod.mk.injEq] at h
  exact ⟨h.1.symm, h.2.symm⟩

lemma sellerStocksLoop_cons {w : WatchRecord} {ws ids m rem}
    (h : Seller.stocksLoop (w :: ws) ids = .ok (m, rem)) :
    (w.code ∈ ids ∧ ∃ st rest,
        resolveStock w.quantity = some st ∧
        Seller.stocksLoop ws (ids.erase w.code) = .ok (rest, rem) ∧
        m = ⟨w.code, st⟩ :: rest) ∨
    (w.code ∉ ids ∧ Seller.stocksLoop ws ids = .ok (m, rem)) := by
  by_cases hmem : w.code ∈ ids
  · left
    refine ⟨hmem, ?_⟩
    simp only [Seller.stocksLoop] at h
    rw [if_pos hmem] at h
    cases hres : resolveStock w.quantity with
    | none => rw [hres] at h; exact absurd h (by simp)
    | some st =>
        rw [hres] at h
        cases hrec : Seller.stocksLoop ws (ids.erase w.code) with
        | error e => rw [hrec] at h; exact absurd h (by simp)
        | ok p =>
            obtain ⟨rest, rem2⟩ := p
            rw [hrec] at h
            simp only [Except.ok.injEq, Prod.mk.injEq] at h
            exact ⟨st, rest, rfl, by rw [h.2], h.1.symm⟩
  · right
    refine ⟨hmem, ?_⟩
    simpa only [Seller.stocksLoop, if_neg hmem] using h

lemma sellerStocksLoop_rem_sublist :
    ∀ {ws : List WatchRecord} {ids m rem},
      Seller.stocksLoop ws ids = .ok (m, rem) → List.Sublist rem ids := by
  intro ws
  induction ws with
  | nil =>
      intro ids m rem h
      rw [(sellerStocksLoop_nil h).2]
  | cons w ws ih =>
      intro ids m rem h
      rcases sellerStocksLoop_cons h with ⟨_, st, rest, _, hrec, _⟩ | ⟨_, hrec⟩
      · exact (ih hrec).trans (List.erase_sublist _ _)
      · exact ih hrec

lemma sellerStocksLoop_codes_sublist :
    ∀ {ws : List WatchRecord} {ids m rem},
      Seller.stocksLoop ws ids = .ok (m, rem) →
      List.Sublist (m.map Seller.StockEntry.offer_id) (ws.map WatchRecord.code) := by
  intro ws
  induction ws with
  | nil =>
      intro ids m rem h
      rw [(sellerStocksLoop_nil h).1]
      exact List.Sublist.refl _
  | cons w ws ih =>
      intro ids m rem h
      rcases sellerStocksLoop_cons h with ⟨_, st, rest, _, hrec, hm⟩ | ⟨_, hrec⟩
      · subst hm
        exact List.Sublist.cons₂ _ (ih hrec)
      · exact (ih hrec).cons _

lemma sellerStocksLoop_entry_mem :
    ∀ {ws : List WatchRecord} {ids m rem},
      Seller.stocksLoop ws ids = .ok (m, rem) →
      ∀ e ∈ m, e.offer_id ∈ ids := by
  intro ws
  induction ws with
  | nil =>
      intro ids m rem h e he
      rw [(sellerStocksLoop_nil h).1] at he
      exact absurd he (List.not_mem_nil e)
  | cons w ws ih =>
      intro ids m rem h e he
      rcases sellerStocksLoop_cons h with ⟨hmem, st, rest, _, hrec, hm⟩ | ⟨_, hrec⟩
      · subst hm
        rcases List.mem_cons.mp he with he | he
        · subst he; exact hmem
        · exact List.mem_of_mem_erase (ih hrec e he)
      · exact ih hrec e he

lemma sellerStocksLoop_entry_resolved :
    ∀ {ws : List WatchRecord} {ids m rem},
      Seller.stocksLoop ws ids = .ok (m, rem) →
      ∀ e ∈ m, ∃ w ∈ ws, w.code = e.offer_id ∧
        resolveStock w.quantity = some e.stock := by
  intro ws
  induction ws with
  | nil =>
      intro ids m rem h e he
      rw [(sellerStocksLoop_nil h).1] at he
      exact absurd he (List.not_mem_nil e)
  | cons w ws ih =>
      intro ids m rem h e he
      rcases sellerStocksLoop_cons h with ⟨hmem, st, rest, hres, hrec, hm⟩ | ⟨_, hrec⟩
      · subst hm
        rcases List.mem_cons.mp he with he | he
        · subst he
          exact ⟨w, List.mem_cons_self w ws, rfl, hres⟩
        · obtain ⟨w2, hw2, hcode, hres2⟩ := ih hrec e he
          exact ⟨w2, List.mem_cons_of_mem w hw2, hcode, hres2⟩
      · obtain ⟨w2, hw2, hcode, hres2⟩ := ih hrec e he
        exact ⟨w2, List.mem_cons_of_mem w hw2, hcode, hres2⟩

lemma sellerStocksLoop_partition :
    ∀ {ws : List WatchRecord} {ids m rem},
      ids.Nodup →
      Seller.stocksLoop ws ids = .ok (m, rem) →
      ∀ i ∈ ids,
        (i ∈ m.map Seller.StockEntry.offer_id ↔ ∃ w ∈ ws, w.code = i) ∧
        (i ∈ rem ↔ ¬ ∃ w ∈ ws, w.code = i) := by
  intro ws
  induction ws with
  | nil =>
      intro ids m rem hnd h i hi
      obtain ⟨hm, hrem⟩ := sellerStocksLoop_nil h
      subst hm
      subst hrem
      simp [hi]
  | cons w ws ih =>
      intro ids m rem hnd h i hi
      rcases sellerStocksLoop_cons h with ⟨hmem, st, rest, hres, hrec, hm⟩ | ⟨hmem, hrec⟩
      · subst hm
        by_cases heq : i = w.code
        · subst heq
          have hnotem : w.code ∉ ids.erase w.code := fun hc =>
            absurd ((hnd.mem_erase_iff).mp hc).1 (by simp)
          constructor
          · simp
          · constructor
            · intro hc
              exact absurd ((sellerStocksLoop_rem_sublist hrec).subset hc) hnotem
            · intro hc
              exact absurd ⟨w, List.mem_cons_self w ws, rfl⟩ hc
        · have hi2 : i ∈ ids.erase w.code :=
            (hnd.mem_erase_iff).mpr ⟨heq, hi⟩
          have := ih (hnd.erase w.code) hrec i hi2
          constructor
          · rw [List.map_cons]
            constructor
            · intro hc
              rcases List.mem_cons.mp hc with hc | hc
              · exact absurd hc heq
              · obtain ⟨w2, hw2, hcode⟩ := this.1.mp hc
                exact ⟨w2, List.mem_cons_of_mem w hw2, hcode⟩
            · rintro ⟨w2, hw2, hcode⟩
              rcases List.mem_cons.mp hw2 with hw2 | hw2
              · subst hw2
                exact absurd hcode.symm heq
              · exact List.mem_cons_of_mem _ (this.1.mpr ⟨w2, hw2, hcode⟩)
          · rw [this.2]
            constructor
            · rintro hno ⟨w2, hw2, hcode⟩
              rcases List.mem_cons.mp hw2 with hw2 | hw2
              · subst hw2
                exact heq hcode.symm
              · exact hno ⟨w2, hw2, hcode⟩
            · rintro hno ⟨w2, hw2, hcode⟩
              exact hno ⟨w2, List.mem_cons_of_mem w hw2, hcode⟩
      · have hne : w.code ≠ i := fun hc => hmem (hc ▸ hi)
        have := ih hnd hrec i hi
        constructor
        · rw [this.1]
          constructor
          · rintro ⟨w2, hw2, hcode⟩
            exact ⟨w2, List.mem_cons_of_mem w hw2, hcode⟩
          · rintro ⟨w2, hw2, hcode⟩
            rcases List.mem_cons.mp hw2 with hw2 | hw2
            · subst hw2
              exact absurd hcode hne
            · exact ⟨w2, hw2, hcode⟩
        · rw [this.2]
          constructor
          · rintro hno ⟨w2, hw2, hcode⟩
            rcases List.mem_cons.mp hw2 with hw2 | hw2
            · subst hw2
              exact hne hcode
            · exact hno ⟨w2, hw2, hcode⟩
          · rintro hno ⟨w2, hw2, hcode⟩
            exact hno ⟨w2, List.mem_cons_of_mem w hw2, hcode⟩

lemma sellerStocksLoop_codes_nodup :
    ∀ {ws : List WatchRecord} {ids m rem},
      ids.Nodup →
      Seller.stocksLoop ws ids = .ok (m, rem) →
      (m.map Seller.StockEntry.offer_id).Nodup := by
  intro ws
  induction ws with
  | nil =>
      intro ids m rem hnd h
      rw [(sellerStocksLoop_nil h).1]
      exact List.nodup_nil
  | cons w ws ih =>
      intro ids m rem hnd h
      rcases sellerStocksLoop_cons h with ⟨hmem, st, rest, _, hrec, hm⟩ | ⟨_, hrec⟩
      · subst hm
        rw [List.map_cons]
        refine List.nodup_cons.mpr ⟨?_, ih (hnd.erase w.code) hrec⟩
        intro hc
        obtain ⟨e, he, hcode⟩ := List.mem_map.mp hc
        have := sellerStocksLoop_entry_mem hrec e he
        rw [hcode] at this
        exact absurd ((hnd.mem_erase_iff).mp this).1 (by simp)
      · exact ih hnd hrec

lemma seller_create_stocks_ok {ws : List WatchRecord} {ids stocks rem}
    (h : Seller.create_stocks ws ids = .ok (stocks, rem)) :
    ∃ m, Seller.stocksLoop ws ids = .ok (m, rem) ∧
      stocks = m ++ rem.map (fun i => ⟨i, 0⟩) := by
  unfold Seller.create_stocks at h
  cases hl : Seller.stocksLoop ws ids with
  | error e => rw [hl] at h; exact absurd h (by simp)
  | ok p =>
      obtain ⟨m, rem2⟩ := p
      rw [hl] at h
      simp only [Except.ok.injEq, Prod.mk.injEq] at h
      obtain ⟨h1, h2⟩ := h
      subst h2
      exact ⟨m, rfl, h1.symm⟩

lemma marketStocksLoop_cons {w : WatchRecord} {ws ids m rem} {wh date : String}
    (h : Market.stocksLoop wh date (w :: ws) ids = .ok (m, rem)) :
    (w.code ∈ ids ∧ ∃ st rest,
        resolveStock w.quantity = some st ∧
        Market.stocksLoop wh date ws (ids.erase w.code) = .ok (rest, rem) ∧
        m = ⟨w.code, wh, [⟨st, date⟩]⟩ :: rest) ∨
    (w.code ∉ ids ∧ Market.stocksLoop wh date ws ids = .ok (m, rem)) := by
  by_cases hmem : w.code ∈ ids
  · left
    refine ⟨hmem, ?_⟩
    simp only [Market.stocksLoop] at h
    rw [if_pos hmem] at h
    cases hres : resolveStock w.quantity with
    | none => rw [hres] at h; exact absurd h (by simp)
    | some st =>
        rw [hres] at h
        cases hrec : Market.stocksLoop wh date ws (ids.erase w.code) with
        | error e => rw [hrec] at h; exact absurd h (by simp)
        | ok p =>
            obtain ⟨rest, rem2⟩ := p
            rw [hrec] at h
            simp only [Except.ok.injEq, Prod.mk.injEq] at h
            exact ⟨st, rest, rfl, by rw [h.2], h.1.symm⟩
  · right
    refine ⟨hmem, ?_⟩
    simpa only [Market.stocksLoop, if_neg hmem] using h

lemma market_create_stocks_ok {ws : List WatchRecord} {ids stocks rem}
    {wh date : String}
    (h : Market.create_stocks ws ids wh date = .ok (stocks, rem)) :
    ∃ m, Market.stocksLoop wh date ws ids = .ok (m, rem) ∧
      stocks = m ++ rem.map (fun i => ⟨i, wh, [⟨0, date⟩]⟩) := by
  unfold Market.create_stocks at h
  cases hl : Market.stocksLoop wh date ws ids with
  | error e => rw [hl] at h; exact absurd h (by simp)
  | ok p =>
      obtain ⟨m, rem2⟩ := p
      rw [hl] at h
      simp only [Except.ok.injEq, Prod.mk.injEq] at h
      obtain ⟨h1, h2⟩ := h
      subst h2
      exact ⟨m, rfl, h1.symm⟩

lemma seller_create_prices_fst (ws : List WatchRecord) (ids : List String) :
    (Seller.create_prices ws ids).1 =
      (ws.filter (fun w => decide (w.code ∈ ids))).map
        (fun w => ⟨w.code, "0", price_conversion w.price⟩) := by
  induction ws with
  | nil => rfl
  | cons w ws ih =>
      by_cases h : w.code ∈ ids <;>
        simp [Seller.create_prices, List.filter_cons, h, ih]

lemma seller_create_prices_snd (ws : List WatchRecord) (ids : List String) :
    (Seller.create_prices ws ids).2 = ids := by
  induction ws with
  | nil => rfl
  | cons w ws ih =>
      by_cases h : w.code ∈ ids <;> simp [Seller.create_prices, h, ih]

lemma market_create_prices_ok :
    ∀ {ws : List WatchRecord} {ids ps ids2},
      Market.create_prices ws ids = .ok (ps, ids2) →
      ps.map Market.PriceEntry.id =
        (ws.filter (fun w => decide (w.code ∈ ids))).map WatchRecord.code ∧
      ids2 = ids := by
  intro ws
  induction ws with
  | nil =>
      intro ids ps ids2 h
      simp only [Market.create_prices, Except.ok.injEq, Prod.mk.injEq] at h
      rw [← h.1, ← h.2]
      simp
  | cons w ws ih =>
      intro ids ps ids2 h
      by_cases hmem : w.code ∈ ids
      · simp only [Market.create_prices] at h
        rw [if_pos hmem] at h
        cases hpi : pyInt (String.mk (price_conversion w.price)) with
        | none => rw [hpi] at h; exact absurd h (by simp)
        | some v =>
            rw [hpi] at h
            cases hrec : Market.create_prices ws ids with
            | error e => rw [hrec] at h; exact absurd h (by simp)
            | ok p =>
                obtain ⟨rest, ids3⟩ := p
                rw [hrec] at h
                simp only [Except.ok.injEq, Prod.mk.injEq] at h
                obtain ⟨h1, h2⟩ := h
                obtain ⟨ihm, ihi⟩ := ih hrec
                subst h2
                rw [← h1]
                constructor
                · rw [List.map_cons, ihm, List.filter_cons, if_pos (by simpa using hmem)]
                  rfl
                · exact ihi
      · simp only [Market.create_prices] at h
        rw [if_neg hmem] at h
        obtain ⟨ihm, ihi⟩ := ih h
        refine ⟨?_, ihi⟩
        rw [ihm, List.filter_cons, if_neg (by simpa using hmem)]

/-- Claim C1: both stock reconcilers resolve the quantity token of a
matched record as: `">10"` gives stock 100, `"1"` gives stock 0, any
other token is parsed by `int()` (an exact integer), and reconciliation
fails with the `ValueError` when the token is neither sentinel nor an
integer literal. -/
theorem c1_quantity_resolution :
    resolveStock ">10" = some 100 ∧
    resolveStock "1" = some 0 ∧
    (∀ q, q ≠ ">10" → q ≠ "1" → resolveStock q = pyInt q) ∧
    (∀ (w : WatchRecord) (ws : List WatchRecord) (offer_ids : List String),
      w.code ∈ offer_ids →
      (resolveStock w.quantity = none →
        Seller.create_stocks (w :: ws) offer_ids = .error .valueError ∧
        (∀ wh date,
          Market.create_stocks (w :: ws) offer_ids wh date = .error .valueError)) ∧
      (∀ st, resolveStock w.quantity = some st →
        (∀ res, Seller.create_stocks (w :: ws) offer_ids = .ok res →
          res.1.head? = some ⟨w.code, st⟩) ∧
        (∀ wh date res,
          Market.create_stocks (w :: ws) offer_ids wh date = .ok res →
          res.1.head? = some ⟨w.code, wh, [⟨st, date⟩]⟩))) := by
  refine ⟨rfl, rfl, fun q h1 h2 => by simp [resolveStock, h1, h2],
    fun w ws offer_ids hmem => ⟨fun hnone => ⟨?_, fun wh date => ?_⟩,
      fun st hsome => ⟨fun res hres => ?_, fun wh date res hres => ?_⟩⟩⟩
  · simp [Seller.create_stocks, Seller.stocksLoop, hmem, hnone]
  · simp [Market.create_stocks, Market.stocksLoop, hmem, hnone]
  · obtain ⟨stocks, rem⟩ := res
    obtain ⟨m, hl, hst⟩ := seller_create_stocks_ok hres
    rcases sellerStocksLoop_cons hl with ⟨_, st2, rest, hres2, _, hm⟩ | ⟨hni, _⟩
    · have hst2 : st2 = st := Option.some.inj (hres2.symm.trans hsome)
      subst hst2
      subst hm
      simp [hst]
    · exact absurd hmem hni
  · obtain ⟨stocks, rem⟩ := res
    obtain ⟨m, hl, hst⟩ := market_create_stocks_ok hres
    rcases marketStocksLoop_cons hl with ⟨_, st2, rest, hres2, _, hm⟩ | ⟨hni, _⟩
    · have hst2 : st2 = st := Option.some.inj (hres2.symm.trans hsome)
      subst hst2
      subst hm
      simp [hst]
    · exact absurd hmem hni

/-- Claim C1 witness: a matched `">10"` record heads the seller output
with stock 100. -/
theorem c1_quantity_resolution_witness :
    (("A1" : String) ∈ (["A1"] : List String)) ∧
    resolveStock ">10" = some 100 ∧
    ([(⟨"A1", 100⟩ : Seller.StockEntry)], ([] : List String)).1.head? =
      some ⟨"A1", 100⟩ :=
  ⟨by decide, by decide,
    ((c1_quantity_resolution.2.2.2 ⟨"A1", ">10", []⟩ [] ["A1"]
      (by decide)).2 100 (by decide)).1 ([⟨"A1", 100⟩], []) rfl⟩

/-- Claim C2: on a duplicate-free offer-id list, a successful run of the
seller stock reconciler outputs exactly one entry per known offer id and
no others: matched entries first in inventory-scan order, each carrying
the resolved stock of a matching record, then a stock-0 entry for every
unmatched offer id in original catalog order. -/
theorem c2_stock_reconciler_covers (ws : List WatchRecord) (ids : List String)
    (stocks : List Seller.StockEntry) (rem : List String)
    (hnd : ids.Nodup)
    (h : Seller.create_stocks ws ids = .ok (stocks, rem)) :
    (stocks.map Seller.StockEntry.offer_id).Nodup ∧
    (∀ i, i ∈ stocks.map Seller.StockEntry.offer_id ↔ i ∈ ids) ∧
    ∃ matched,
      stocks = matched ++ rem.map (fun i => ⟨i, 0⟩) ∧
      List.Sublist (matched.map Seller.StockEntry.offer_id)
        (ws.map WatchRecord.code) ∧
      List.Sublist rem ids ∧
      (∀ e ∈ matched, ∃ w ∈ ws, w.code = e.offer_id ∧
        resolveStock w.quantity = some e.stock) ∧
      (∀ i ∈ rem, ∀ w ∈ ws, w.code ≠ i) := by
  obtain ⟨m, hl, hst⟩ := seller_create_stocks_ok h
  have hsub := sellerStocksLoop_rem_sublist hl
  have hpart := sellerStocksLoop_partition hnd hl
  have hmnd := sellerStocksLoop_codes_nodup hnd hl
  have hemem := sellerStocksLoop_entry_mem hl
  have hmap : stocks.map Seller.StockEntry.offer_id =
      m.map Seller.StockEntry.offer_id ++ rem := by
    rw [hst, List.map_append, List.map_map]
    have hid : (Seller.StockEntry.offer_id ∘
        fun i => (⟨i, 0⟩ : Seller.StockEntry)) = id := rfl
    rw [hid, List.map_id]
  have hmsub : ∀ i ∈ m.map Seller.StockEntry.offer_id, i ∈ ids := by
    intro i hi
    obtain ⟨e, he, hcode⟩ := List.mem_map.mp hi
    exact hcode ▸ hemem e he
  refine ⟨?_, ?_, m, hst, sellerStocksLoop_codes_sublist hl, hsub,
    sellerStocksLoop_entry_resolved hl, ?_⟩
  · rw [hmap]
    refine hmnd.append (hsub.nodup hnd) ?_
    intro i him hirem
    have hiids : i ∈ ids := hmsub i him
    exact absurd him
      (by
        have := (hpart i hiids).2.mp hirem
        intro hc
        exact this ((hpart i hiids).1.mp hc))
  · intro i
    rw [hmap, List.mem_append]
    constructor
    · rintro (hi | hi)
      · exact hmsub i hi
      · exact hsub.subset hi
    · intro hi
      by_cases hex : ∃ w ∈ ws, w.code = i
      · exact Or.inl ((hpart i hi).1.mpr hex)
      · exact Or.inr ((hpart i hi).2.mpr hex)
  · intro i hi w hw hcode
    have hiids : i ∈ ids := hsub.subset hi
    exact (hpart i hiids).2.mp hi ⟨w, hw, hcode⟩

/-- Claim C2 witness: inventory `[B ↦ "1"]` against catalog `["A", "B"]`
gives the matched entry for B followed by the zero-fill entry for A. -/
theorem c2_stock_reconciler_covers_witness :
    (["A", "B"] : List String).Nodup ∧
    (([⟨"B", 0⟩, ⟨"A", 0⟩] : List Seller.StockEntry).map
        Seller.StockEntry.offer_id).Nodup ∧
    (∀ i, i ∈ ([⟨"B", 0⟩, ⟨"A", 0⟩] : List Seller.StockEntry).map
        Seller.StockEntry.offer_id ↔ i ∈ (["A", "B"] : List String)) ∧
    ∃ matched,
      ([⟨"B", 0⟩, ⟨"A", 0⟩] : List Seller.StockEntry) =
        matched ++ (["A"] : List String).map (fun i => ⟨i, 0⟩) ∧
      List.Sublist (matched.map Seller.StockEntry.offer_id)
        (([⟨"B", "1", []⟩] : List WatchRecord).map WatchRecord.code) ∧
      List.Sublist (["A"] : List String) (["A", "B"] : List String) ∧
      (∀ e ∈ matched, ∃ w ∈ ([⟨"B", "1", []⟩] : List WatchRecord),
        w.code = e.offer_id ∧ resolveStock w.quantity = some e.stock) ∧
      (∀ i ∈ (["A"] : List String),
        ∀ w ∈ ([⟨"B", "1", []⟩] : List WatchRecord), w.code ≠ i) :=
  ⟨by decide,
    c2_stock_reconciler_covers [⟨"B", "1", []⟩] ["A", "B"]
      [⟨"B", 0⟩, ⟨"A", 0⟩] ["A"] (by decide) rfl⟩

/-- Claim C3 (code defect): seller.py `main` passes the very offer-id list
that `create_stocks` just consumed destructively on to `create_prices`, so
on a duplicate-free catalog every id with a matching inventory record has
already been removed and the price list built in `main` is always empty —
the price reconciler never sees the full offer-id set. -/
theorem c3_seller_main_prices_empty (ws : List WatchRecord) (ids : List String)
    (stocks : List Seller.StockEntry) (prices : List Seller.PriceEntry)
    (hnd : ids.Nodup)
    (h : sellerMainSync ws ids = .ok (stocks, prices)) :
    prices = [] := by
  unfold sellerMainSync at h
  cases hcs : Seller.create_stocks ws ids with
  | error e => rw [hcs] at h; exact absurd h (by simp)
  | ok p =>
      obtain ⟨st0, ids2⟩ := p
      rw [hcs] at h
      simp only [Except.ok.injEq, Prod.mk.injEq] at h
      obtain ⟨m, hl, hst⟩ := seller_create_stocks_ok hcs
      have hpart := sellerStocksLoop_partition hnd hl
      have hsub := sellerStocksLoop_rem_sublist hl
      rw [← h.2, seller_create_prices_fst]
      have hfil : ws.filter (fun w => decide (w.code ∈ ids2)) = [] := by
        rw [List.filter_eq_nil_iff]
        intro w hw hdec
        have hmem : w.code ∈ ids2 := of_decide_eq_true hdec
        exact (hpart w.code (hsub.subset hmem)).2.mp hmem ⟨w, hw, rfl⟩
      rw [hfil]
      rfl

/-- Claim C3 witness: one matched record, catalog `["A1", "C3"]` — the
price list computed by the `main` data flow is empty. -/
theorem c3_seller_main_prices_empty_witness :
    (["A1", "C3"] : List String).Nodup ∧
    sellerMainSync [⟨"A1", ">10", []⟩] ["A1", "C3"] =
      .ok ([⟨"A1", 100⟩, ⟨"C3", 0⟩], []) ∧
    ([] : List Seller.PriceEntry) = [] :=
  ⟨by decide, rfl,
    c3_seller_main_prices_empty [⟨"A1", ">10", []⟩] ["A1", "C3"]
      [⟨"A1", 100⟩, ⟨"C3", 0⟩] [] (by decide) rfl⟩

/-- Claim C5: both price reconcilers produce one entry per inventory
record whose code is in the offer-id set and none for unmatched offer
ids, and leave the caller's offer-id set unchanged. -/
theorem c5_create_prices (ws : List WatchRecord) (offer_ids : List String) :
    (Seller.create_prices ws offer_ids).1 =
      (ws.filter (fun w => decide (w.code ∈ offer_ids))).map
        (fun w => ⟨w.code, "0", price_conversion w.price⟩) ∧
    (Seller.create_prices ws offer_ids).2 = offer_ids ∧
    (∀ ps ids2, Market.create_prices ws offer_ids = .ok (ps, ids2) →
      ps.map Market.PriceEntry.id =
        (ws.filter (fun w => decide (w.code ∈ offer_ids))).map WatchRecord.code ∧
      ids2 = offer_ids) :=
  ⟨seller_create_prices_fst ws offer_ids, seller_create_prices_snd ws offer_ids,
    fun _ _ h => market_create_prices_ok h⟩

/-- Claim C5 witness: a matched and an unmatched record against catalog
`["A1"]` on the market variant. -/
theorem c5_create_prices_witness :
    ([(⟨"A1", 1⟩ : Market.PriceEntry)].map Market.PriceEntry.id =
      (([⟨"A1", "1", "1.0 r".data⟩, ⟨"X", "1", "2".data⟩] :
          List WatchRecord).filter
        (fun w => decide (w.code ∈ (["A1"] : List String)))).map
          WatchRecord.code) ∧
    (["A1"] : List String) = ["A1"] :=
  (c5_create_prices [⟨"A1", "1", "1.0 r".data⟩, ⟨"X", "1", "2".data⟩]
    ["A1"]).2.2 [⟨"A1", 1⟩] ["A1"] rfl

lemma marketChannelTrace_no_price {ws : List WatchRecord}
    {ids : List String} {cid wh date : String} {t : List MarketEvent}
    (h : marketChannelTrace ws ids cid wh date = .ok t) :
    ∀ e ∈ t, e.isPriceBatch = false := by
  unfold marketChannelTrace at h
  cases hcs : Market.create_stocks ws ids wh date with
  | error e => rw [hcs] at h; exact absurd h (by simp)
  | ok p =>
      obtain ⟨stocks, rem⟩ := p
      rw [hcs] at h
      simp only [Except.ok.injEq] at h
      subst h
      intro e he
      obtain ⟨b, _, hb⟩ := List.mem_map.mp he
      rw [← hb]
      rfl

/-- Claim C4 (code defect): a run of market.py `main` issues the chunked
stock-update calls for each channel but never executes any price-update
call: `upload_prices` is an `async def` invoked without `await`, so its
coroutine is created and discarded and the price half of the per-channel
pipeline never runs. -/
theorem c4_market_main_no_price_calls
    (ws : List WatchRecord) (ids_fbs ids_dbs : List String)
    (cf cd wf wd date : String) (tr : List MarketEvent)
    (h : marketMainTrace ws ids_fbs ids_dbs cf cd wf wd date = .ok tr) :
    ∀ e ∈ tr, e.isPriceBatch = false := by
  unfold marketMainTrace at h
  cases h1 : marketChannelTrace ws ids_fbs cf wf date with
  | error e => rw [h1] at h; exact absurd h (by simp)
  | ok t1 =>
      rw [h1] at h
      cases h2 : marketChannelTrace ws ids_dbs cd wd date with
      | error e => rw [h2] at h; exact absurd h (by simp)
      | ok t2 =>
          rw [h2] at h
          simp only [Except.ok.injEq] at h
          subst h
          intro e he
          rcases List.mem_append.mp he with he | he
          · exact marketChannelTrace_no_price h1 e he
          · exact marketChannelTrace_no_price h2 e he

/-- Claim C4 witness: with a one-id catalog per channel, the run's trace
is two stock-update calls and no price-update call. -/
theorem c4_market_main_no_price_calls_witness :
    (MarketEvent.stockBatch "F"
      [⟨"A", "WF", [⟨0, "T"⟩]⟩]).isPriceBatch = false ∧
    (MarketEvent.stockBatch "D"
      [⟨"A", "WD", [⟨0, "T"⟩]⟩]).isPriceBatch = false := by
  have htr : marketMainTrace [] ["A"] ["A"] "F" "D" "WF" "WD" "T" =
      .ok [.stockBatch "F" [⟨"A", "WF", [⟨0, "T"⟩]⟩],
           .stockBatch "D" [⟨"A", "WD", [⟨0, "T"⟩]⟩]] := by
    have hch : toChunks 2000
        [(⟨"A", "WF", [⟨0, "T"⟩]⟩ : Market.StockEntry)] =
        [[⟨"A", "WF", [⟨0, "T"⟩]⟩]] := by
      rw [toChunks_cons 2000 (by decide)]
      simp [toChunks_nil]
    have hch2 : toChunks 2000
        [(⟨"A", "WD", [⟨0, "T"⟩]⟩ : Market.StockEntry)] =
        [[⟨"A", "WD", [⟨0, "T"⟩]⟩]] := by
      rw [toChunks_cons 2000 (by decide)]
      simp [toChunks_nil]
    simp [marketMainTrace, marketChannelTrace, Market.create_stocks,
      Market.stocksLoop, hch, hch2]
  have h := c4_market_main_no_price_calls [] ["A"] ["A"] "F" "D" "WF" "WD" "T"
    [.stockBatch "F" [⟨"A", "WF", [⟨0, "T"⟩]⟩],
     .stockBatch "D" [⟨"A", "WD", [⟨0, "T"⟩]⟩]] htr
  exact ⟨h _ (by simp), h _ (by simp)⟩

lemma accBefore_succ (srv : Server) (k : Nat) :
    accBefore srv (k + 1) = accBefore srv k ++ (pageSeq srv k).items := by
  unfold accBefore
  rw [List.range_succ, List.flatMap_append]
  simp

lemma fetchLoop_step (srv : Server) (fuel k : Nat) :
    fetchLoop srv (fuel + 1) (cursorSeq srv k) (accBefore srv k) =
      if stopAt srv k then some (accBefore srv (k + 1))
      else fetchLoop srv fuel (cursorSeq srv (k + 1)) (accBefore srv (k + 1)) := by
  have hacc : accBefore srv k ++ (srv (cursorSeq srv k)).items =
      accBefore srv (k + 1) := by
    rw [accBefore_succ]
    rfl
  by_cases hstop : stopAt srv k
  · rw [if_pos hstop]
    unfold stopAt at hstop
    simp only [pageSeq] at hstop
    simp only [fetchLoop, hacc]
    rw [if_pos hstop]
  · rw [if_neg hstop]
    unfold stopAt at hstop
    simp only [pageSeq] at hstop
    simp only [fetchLoop, hacc]
    rw [if_neg hstop]
    rfl

lemma fetchLoop_none_of_no_stop (srv : Server)
    (h : ∀ k, ¬ stopAt srv k) :
    ∀ fuel k, fetchLoop srv fuel (cursorSeq srv k) (accBefore srv k) = none := by
  intro fuel
  induction fuel with
  | zero => intro k; rfl
  | succ fuel ih =>
      intro k
      rw [fetchLoop_step, if_neg (h k)]
      exact ih (k + 1)

lemma fetchLoop_some_of_stop (srv : Server) :
    ∀ (n k : Nat), (∀ j, k ≤ j → j < k + n → ¬ stopAt srv j) →
      stopAt srv (k + n) →
      fetchLoop srv (n + 1) (cursorSeq srv k) (accBefore srv k) =
        some (accBefore srv (k + n + 1)) := by
  intro n
  induction n with
  | zero =>
      intro k _ hstop
      rw [fetchLoop_step, if_pos (by simpa using hstop)]
  | succ n ih =>
      intro k hno hstop
      rw [fetchLoop_step, if_neg (hno k le_rfl (by omega))]
      have hres := ih (k + 1) (fun j hj1 hj2 => hno j (by omega) (by omega))
        (by rw [show k + 1 + n = k + (n + 1) from by omega]; exact hstop)
      rw [show k + 1 + n + 1 = k + (n + 1) + 1 from by omega] at hres
      exact hres

/-- Claim C10: the Ozon catalog fetcher terminates exactly when, at the
end of some page, the server-reported total equals the number of items
accumulated so far; at the first such page it returns the offer ids of
every listed product across all consumed pages, and when no page ever
satisfies the equality the loop runs forever (no fuel suffices). -/
theorem c10_pagination (srv : Server) :
    ((∃ fuel ids, get_offer_ids srv fuel = some ids) ↔ ∃ k, stopAt srv k) ∧
    (∀ k, stopAt srv k → (∀ j, j < k → ¬ stopAt srv j) →
      get_offer_ids srv (k + 1) = some (accBefore srv (k + 1))) ∧
    ((∀ k, ¬ stopAt srv k) → ∀ fuel, get_offer_ids srv fuel = none) := by
  have hdiv : (∀ k, ¬ stopAt srv k) → ∀ fuel, get_offer_ids srv fuel = none := by
    intro h fuel
    have := fetchLoop_none_of_no_stop srv h fuel 0
    simpa [get_offer_ids, cursorSeq, accBefore] using this
  have hterm : ∀ k, stopAt srv k → (∀ j, j < k → ¬ stopAt srv j) →
      get_offer_ids srv (k + 1) = some (accBefore srv (k + 1)) := by
    intro k hk hmin
    have := fetchLoop_some_of_stop srv k 0
      (fun j hj1 hj2 => hmin j (by omega)) (by simpa using hk)
    simpa [get_offer_ids, cursorSeq, accBefore] using this
  refine ⟨⟨?_, ?_⟩, hterm, hdiv⟩
  · rintro ⟨fuel, ids, hf⟩
    by_contra hno
    push_neg at hno
    rw [hdiv hno fuel] at hf
    exact Option.noConfusion hf
  · rintro ⟨k, hk⟩
    have hex : ∃ j, stopAt srv j := ⟨k, hk⟩
    exact ⟨Nat.find hex + 1, accBefore srv (Nat.find hex + 1),
      hterm (Nat.find hex) (Nat.find_spec hex)
        (fun j hj => Nat.find_min hex hj)⟩

/-- Claim C10 witness: the one-page server stops at page 0 and returns
its single listed offer id. -/
theorem c10_pagination_witness :
    stopAt onePageServer 0 ∧
    get_offer_ids onePageServer 1 = some (accBefore onePageServer 1) :=
  ⟨by decide,
    (c10_pagination onePageServer).2.1 0 (by decide)
      (fun j hj => absurd hj (Nat.not_lt_zero j))⟩

end SellerApis
